import Mathlib

/-!
A verification development for the safe-tool-call call-governance gateway.
The repository describes a pipeline that mediates every tool call through
registry lookup, permission checking, input validation, bounded execution,
output validation, default-deny output filtering and unconditional audit
logging.  The definitions below are a shallow embedding of that design;
the theorems settle the specified properties against it.
-/

namespace SafeToolCall

/-- Modelled from the spec: the repository contains only design documents, no
implementation sources, so the JSON-like value universe handled by the schema
validator and the output policy engine (§4.3, §4.4) is modelled here: null,
booleans, numbers, strings, arrays and string-keyed objects. -/
inductive Value where
  | null : Value
  | bool : Bool → Value
  | num : Int → Value
  | str : String → Value
  | arr : List Value → Value
  | obj : List (String × Value) → Value
deriving Repr, BEq

/-- Modelled from the spec: a concrete path segment inside a produced value —
either a named object field or an array-element position.  The policy path
language (§4.4, DESIGN_DECISIONS §2) never names a concrete array index
(array matching applies a rule to every element), so element segments carry
no index. -/
inductive CSeg where
  | field : String → CSeg
  | elem : CSeg
deriving Repr, BEq, DecidableEq

/-- Modelled from the spec: one segment of a policy path expression — an exact
field name, a single-level wildcard, or an array-element marker. -/
inductive PSeg where
  | field : String → PSeg
  | wildcard : PSeg
  | anyElem : PSeg
deriving Repr, BEq, DecidableEq

/-- Modelled from the spec: a policy path expression (§4.4) — an exact or
wildcard segment path, a recursive-descent marker matching a field name at
any depth, or the catch-all pattern matching every leaf. -/
inductive Pattern where
  | path : List PSeg → Pattern
  | recursiveField : String → Pattern
  | catchAll : Pattern
deriving Repr, BEq

/-- Modelled from the spec: the three output-policy actions (§4.4). -/
inductive FieldRule where
  | allow : FieldRule
  | mask : FieldRule
  | redact : FieldRule
deriving Repr, BEq, DecidableEq

/-- Modelled from the spec: an output field policy is a map from path
expressions to allow/mask/redact, kept in declaration order because
declaration order is the documented tie-break. -/
abbrev OutputPolicy := List (Pattern × FieldRule)

/-- Does a pattern segment match a concrete segment?  Field names match by
exact string equality; a wildcard matches any field; the array marker matches
any element position. -/
def segMatch : PSeg → CSeg → Bool
  | .field s, .field t => s == t
  | .wildcard, .field _ => true
  | .anyElem, .elem => true
  | _, _ => false

/-- Does a segment-path pattern match the whole concrete path? -/
def pathMatchesAll : List PSeg → List CSeg → Bool
  | [], [] => true
  | p :: ps, c :: cs => segMatch p c && pathMatchesAll ps cs
  | _, _ => false

/-- Does a segment-path pattern match a strict leading part of the concrete
path?  This is the subtree case: a rule whose path terminates at an object or
array affects the entire subtree beneath it. -/
def pathMatchesInto : List PSeg → List CSeg → Bool
  | [], [] => false
  | [], _ :: _ => true
  | _ :: _, [] => false
  | p :: ps, c :: cs => segMatch p c && pathMatchesInto ps cs

/-- Does the segment list use a single-level wildcard? -/
def hasWildcard (segs : List PSeg) : Bool :=
  segs.any (fun s => s == PSeg.wildcard)

/-- Modelled from the spec: structural specificity of a pattern at a concrete
leaf path.  Returns none when the pattern does not match, otherwise a
(rank, length) score: rank 3 for an exact path, 2 for a wildcard path or the
catch-all, 1 for recursive descent — the documented precedence is
exact path > wildcard > recursive-descent, with longer paths more specific
within a rank. -/
def patScore : Pattern → List CSeg → Option (Nat × Nat)
  | .path segs, q =>
      if pathMatchesAll segs q || pathMatchesInto segs q then
        some (if hasWildcard segs then 2 else 3, segs.length)
      else none
  | .recursiveField name, q =>
      if q.contains (CSeg.field name) then some (1, 1) else none
  | .catchAll, q => if q.isEmpty then none else some (2, 0)

/-- Lexicographic strict comparison on (rank, length) scores. -/
def lexGT (a b : Nat × Nat) : Bool :=
  decide (b.1 < a.1) || (a.1 == b.1 && decide (b.2 < a.2))

/-- Modelled from the spec: compare one declared rule against the best match
so far — a strictly greater (rank, length) score replaces the incumbent, so
on ties the earliest declared rule wins (declaration order is the documented
deterministic tie-break). -/
def resolveStep (q : List CSeg) (best : Option ((Nat × Nat) × FieldRule))
    (pr : Pattern × FieldRule) : Option ((Nat × Nat) × FieldRule) :=
  match patScore pr.1 q with
  | none => best
  | some sc =>
    match best with
    | none => some (sc, pr.2)
    | some b => if lexGT sc b.1 then some (sc, pr.2) else best

/-- Fold the scored comparison over the policy in declaration order. -/
def resolveBest (policy : OutputPolicy) (q : List CSeg) :
    Option ((Nat × Nat) × FieldRule) :=
  policy.foldl (resolveStep q) none

/-- The rule an output policy applies at a concrete leaf path, if any rule
matches it at all (none means the default-deny strip). -/
def resolveRule (policy : OutputPolicy) (q : List CSeg) : Option FieldRule :=
  (resolveBest policy q).map (fun b => b.2)

/-- Modelled from the spec: the fixed-length mask token used for string
masking. -/
def maskToken : String := "***"

/-- Modelled from the spec: masking keeps the first and last character and
replaces the interior with the fixed mask token, independent of the original
length (§4.4, plan §1.8). -/
def maskString (s : String) : String :=
  ⟨s.data.take 1 ++ maskToken.data ++ s.data.drop (s.data.length - 1)⟩

/-- Modelled from the spec: what a resolved rule does to a leaf value.
No matching rule strips the leaf (default deny); allow keeps it; redact
strips it; mask rewrites a string of length at least 3 and fully redacts
shorter strings (§4.4) as well as non-string leaves. -/
def applyLeafRule : Option FieldRule → Value → Option Value
  | none, _ => none
  | some .allow, v => some v
  | some .redact, _ => none
  | some .mask, .str s => if s.length ≤ 2 then none else some (.str (maskString s))
  | some .mask, _ => none

mutual
/-- Modelled from the spec: the output policy engine's traversal (§4.4).
Leaves are kept, masked or stripped according to the most specific matching
rule; objects and arrays keep their surviving children and are dropped
entirely when nothing beneath them survives. -/
def filterVal (policy : OutputPolicy) (path : List CSeg) : Value → Option Value
  | .obj fields =>
      match filterFields policy path fields with
      | [] => none
      | k :: ks => some (.obj (k :: ks))
  | .arr elems =>
      match filterElems policy path elems with
      | [] => none
      | e :: es => some (.arr (e :: es))
  | .null => applyLeafRule (resolveRule policy path) .null
  | .bool b => applyLeafRule (resolveRule policy path) (.bool b)
  | .num n => applyLeafRule (resolveRule policy path) (.num n)
  | .str s => applyLeafRule (resolveRule policy path) (.str s)

/-- Filter each field of an object, dropping fields whose subtree is wholly
stripped. -/
def filterFields (policy : OutputPolicy) (path : List CSeg) :
    List (String × Value) → List (String × Value)
  | [] => []
  | (k, v) :: rest =>
      match filterVal policy (path ++ [CSeg.field k]) v with
      | none => filterFields policy path rest
      | some w => (k, w) :: filterFields policy path rest

/-- Filter each element of an array, dropping elements whose subtree is
wholly stripped. -/
def filterElems (policy : OutputPolicy) (path : List CSeg) :
    List Value → List Value
  | [] => []
  | v :: rest =>
      match filterVal policy (path ++ [CSeg.elem]) v with
      | none => filterElems policy path rest
      | some w => w :: filterElems policy path rest
end

/-- Is a leaf path touched, i.e. does an explicit mask or redact rule apply
to it? -/
def touchedLeaf (policy : OutputPolicy) (path : List CSeg) : List (List CSeg) :=
  match resolveRule policy path with
  | some .mask => [path]
  | some .redact => [path]
  | _ => []

mutual
/-- Modelled from the spec: the touched (masked or redacted) leaf paths the
engine reports for the audit record — paths where an explicit mask or redact
rule applied, never the values (§4.4). -/
def touchedVal (policy : OutputPolicy) (path : List CSeg) : Value → List (List CSeg)
  | .obj fields => touchedFields policy path fields
  | .arr elems => touchedElems policy path elems
  | .null => touchedLeaf policy path
  | .bool _ => touchedLeaf policy path
  | .num _ => touchedLeaf policy path
  | .str _ => touchedLeaf policy path

/-- Touched paths under an object's fields. -/
def touchedFields (policy : OutputPolicy) (path : List CSeg) :
    List (String × Value) → List (List CSeg)
  | [] => []
  | (k, v) :: rest =>
      touchedVal policy (path ++ [CSeg.field k]) v ++ touchedFields policy path rest

/-- Touched paths under an array's elements. -/
def touchedElems (policy : OutputPolicy) (path : List CSeg) :
    List Value → List (List CSeg)
  | [] => []
  | v :: rest =>
      touchedVal policy (path ++ [CSeg.elem]) v ++ touchedElems policy path rest
end

/-- Render a concrete segment in the policy path syntax. -/
def renderSeg : CSeg → String
  | .field s => "." ++ s
  | .elem => "[]"

/-- Render a concrete path in the policy path syntax, e.g. ".customer.email". -/
def renderPath (q : List CSeg) : String :=
  String.join (q.map renderSeg)

/-- Result of the output policy engine: the filtered value and the list of
touched (masked or redacted) paths for the audit record. -/
structure FilterResult where
  filtered : Value
  touchedPaths : List String
deriving Repr

/-- Modelled from the spec: `filter(value, policy) → {filtered, touchedPaths}`
(§4.4).  This step cannot fail: default deny guarantees a well-formed
(possibly empty) result, the empty object when nothing survives. -/
def filterOutput (data : Value) (policy : OutputPolicy) : FilterResult :=
  { filtered := (filterVal policy [] data).getD (Value.obj [])
    touchedPaths := (touchedVal policy [] data).map renderPath }



/-- Modelled from the spec: the three-valued classification gating extra
permission requirements (§3, glossary). -/
inductive Classification where
  | read : Classification
  | write : Classification
  | destructive : Classification
deriving Repr, BEq, DecidableEq

/-- Modelled from the spec: the caller context — subject identifier and an
opaque, exact-string permission set (§3). -/
structure CallerContext where
  sub : String
  permissions : List String
deriving Repr, BEq

/-- Modelled from the spec: a structured field-level validation error
(field path, message) as produced by the schema validator (§4.3). -/
structure FieldError where
  path : String
  message : String
deriving Repr, BEq, DecidableEq

/-- Modelled from the spec: a schema is abstracted as its validator — a
function from a raw value to a parsed value or structured field errors
(§4.3). -/
structure Schema where
  validate : Value → Except (List FieldError) Value

/-- Modelled from the spec: an optional elevation rule — a predicate over the
raw input paired with the extra permissions demanded when it holds (§3,
§4.2).  The predicate may fail, modelled by the error channel. -/
structure ElevationRule where
  condition : Value → Except String Bool
  elevatedPermissions : List String

/-- Modelled from the spec: what one handler invocation does — how long the
underlying operation would run to completion, and its output or failure
(§4.6).  Durations are in abstract time units. -/
structure ExecBehavior where
  duration : Nat
  result : Except String Value

/-- Modelled from the spec: an Action (tool) Definition (§3) — name,
description, classification, schemas, required permissions, optional
elevation rule, output field policy, handler and per-action timeout
(default 30 time units). -/
structure ToolDefinition where
  name : String
  description : String
  classification : Classification
  inputSchema : Schema
  outputSchema : Schema
  required : List String
  elevation : Option ElevationRule
  outputPolicy : OutputPolicy
  handler : Value → ExecBehavior
  timeoutLimit : Nat := 30
  sensitiveFields : List String := []

/-- Modelled from the spec: whether elevation is demanded for a raw input.
Fail-closed: a predicate error counts as elevation required, never as no
elevation needed (§4.2). -/
def elevationNeeded (cond : Value → Except String Bool) (raw : Value) : Bool :=
  match cond raw with
  | .ok b => b
  | .error _ => true

/-- Modelled from the spec: the required permission set of a call (§4.2) —
the action's required permissions, plus allow_destructive for destructive
classification, plus the elevated permissions when the elevation rule exists
and holds (or fails) on the raw input. -/
def requiredSet (tool : ToolDefinition) (raw : Value) : List String :=
  tool.required
    ++ (if tool.classification == Classification.destructive then
          ["allow_destructive"] else [])
    ++ (match tool.elevation with
        | none => []
        | some rule =>
            if elevationNeeded rule.condition raw then rule.elevatedPermissions
            else [])

/-- Modelled from the spec: the permission engine's verdict — allowed flag,
optional reason, and the missing permissions (internal detail only). -/
structure PermissionDecision where
  allowed : Bool
  reason : Option String
  missingPermissions : List String
deriving Repr, BEq

/-- Modelled from the spec: `check(caller, action, rawInput)` (§4.2) —
the missing set: required permissions the caller does not hold, computed
with exact-string matching (§4.2, internal detail only). -/
def missingPerms (caller : CallerContext) (tool : ToolDefinition)
    (raw : Value) : List String :=
  (requiredSet tool raw).filter (fun p => !(caller.permissions.contains p))

/-- Modelled from the spec: `check(caller, action, rawInput)` (§4.2) —
allowed iff the required set is contained in the caller's permissions, with
exact-string matching; on denial the missing set is required minus held. -/
def checkPermissions (caller : CallerContext) (tool : ToolDefinition)
    (raw : Value) : PermissionDecision :=
  if (missingPerms caller tool raw).isEmpty then ⟨true, none, []⟩
  else ⟨false, some "missing required permissions",
        missingPerms caller tool raw⟩

/-- Modelled from the spec: the registry's only failure mode (§4.1). -/
inductive RegError where
  | DuplicateName : RegError
deriving Repr, BEq, DecidableEq

/-- Modelled from the spec: the immutable catalog of tool definitions in
registration order (§4.1). -/
structure Registry where
  tools : List ToolDefinition

/-- The empty catalog. -/
def Registry.empty : Registry := ⟨[]⟩

/-- Modelled from the spec: `register(def)` fails with DuplicateName when the
name already exists, leaving the catalog unchanged; otherwise it appends the
definition (§4.1). -/
def Registry.register (r : Registry) (d : ToolDefinition) :
    Option RegError × Registry :=
  if r.tools.any (fun t => t.name == d.name) then (some RegError.DuplicateName, r)
  else (none, ⟨r.tools ++ [d]⟩)

/-- Modelled from the spec: `get(name)` returns the definition or nothing, no
exception (§4.1). -/
def Registry.get (r : Registry) (name : String) : Option ToolDefinition :=
  r.tools.find? (fun t => t.name == name)

/-- Modelled from the spec: `list()` returns all definitions in registration
order (§4.1). -/
def Registry.list (r : Registry) : List ToolDefinition := r.tools

/-- Register a sequence of definitions in order. -/
def registerAll (r : Registry) (ds : List ToolDefinition) : Registry :=
  ds.foldl (fun acc d => (acc.register d).2) r

/-- Modelled from the spec: `validateInput(schema, raw)` (§4.3). -/
def validateInput (schema : Schema) (raw : Value) :
    Except (List FieldError) Value :=
  schema.validate raw

/-- Modelled from the spec: `validateOutput(schema, value)` — structurally
identical to input validation, applied at the second pipeline point (§4.3). -/
def validateOutput (schema : Schema) (value : Value) :
    Except (List FieldError) Value :=
  schema.validate value

/-- Modelled from the spec: the stage recorded on a failure, drawn from
REGISTRY, PERMISSION, VALIDATION, EXECUTION, OUTPUT (§3). -/
inductive ErrStage where
  | REGISTRY : ErrStage
  | PERMISSION : ErrStage
  | VALIDATION : ErrStage
  | EXECUTION : ErrStage
  | OUTPUT : ErrStage
deriving Repr, BEq, DecidableEq

/-- Modelled from the spec: the error taxonomy (§7). -/
inductive ErrCode where
  | NotFound : ErrCode
  | Unauthenticated : ErrCode
  | Forbidden : ErrCode
  | InvalidInput : ErrCode
  | ExecutionFailure : ErrCode
  | InvalidOutput : ErrCode
deriving Repr, BEq, DecidableEq

/-- Modelled from the spec: the caller-visible error — code, message, stage
and optional detail (full detail only for InvalidInput, §7). -/
structure ToolCallError where
  code : ErrCode
  message : String
  stage : ErrStage
  details : Option String
deriving Repr, BEq, DecidableEq

/-- Modelled from the spec: the Call Result — success carrying the filtered
output, or a structured failure (§3). -/
inductive ToolCallResult where
  | ok : Value → ToolCallResult
  | err : ToolCallError → ToolCallResult
deriving Repr, BEq

/-- Modelled from the spec: the audit decision (§3). -/
inductive Decision where
  | ALLOWED : Decision
  | DENIED : Decision
  | ERROR : Decision
deriving Repr, BEq, DecidableEq

/-- Modelled from the spec: the optional denial detail of an audit entry. -/
structure Denial where
  reason : String
  stage : ErrStage
deriving Repr, BEq, DecidableEq

/-- Modelled from the spec: the optional response metadata of an audit
entry — touched field paths and an output fingerprint, never values. -/
structure ResponseMeta where
  redactedFields : List String
  outputHash : Nat
deriving Repr, BEq, DecidableEq

mutual
/-- Modelled from the spec: the one-way request fingerprint over canonical
arguments (§3) is abstracted as a structural fingerprint; audit entries
carry only fingerprints and path lists, never raw values. -/
def fingerprintVal : Value → Nat
  | .null => 1
  | .bool b => if b then 2 else 3
  | .num n => 5 + n.natAbs
  | .str s => 7 + s.length
  | .arr es => 11 + fingerprintElems es
  | .obj fs => 13 + fingerprintFields fs

/-- Fingerprint of an object's field list. -/
def fingerprintFields : List (String × Value) → Nat
  | [] => 0
  | (k, v) :: rest => k.length + fingerprintVal v + fingerprintFields rest

/-- Fingerprint of an array's element list. -/
def fingerprintElems : List Value → Nat
  | [] => 0
  | v :: rest => fingerprintVal v + fingerprintElems rest
end

/-- Modelled from the spec: one audit entry (§3) — caller snapshot, action
snapshot, request fingerprint, decision, optional denial, optional response
metadata, duration. -/
structure AuditEntry where
  callerSub : String
  callerPermissions : List String
  toolName : String
  classification : Option Classification
  argsHash : Nat
  decision : Decision
  denial : Option Denial
  response : Option ResponseMeta
  duration : Nat
deriving Repr, BEq

/-- Modelled from the spec: the orchestrator's states in strict order
(§4.7). -/
inductive PipelineStage where
  | lookup : PipelineStage
  | permission : PipelineStage
  | inputValidation : PipelineStage
  | execution : PipelineStage
  | outputValidation : PipelineStage
  | outputFiltering : PipelineStage
  | audit : PipelineStage
  | done : PipelineStage
deriving Repr, BEq, DecidableEq

/-- Modelled from the spec: engine configuration — the bounded grace period
within which a timed-out operation is forcibly terminated and the call
resolves (§5). -/
structure EngineConfig where
  graceBound : Nat

/-- The observable outcome of one call: the caller-visible result, the audit
entries produced, the pipeline stages traversed, and the elapsed time in
abstract units (only EXECUTE consumes time, §5). -/
structure CallOutcome where
  result : ToolCallResult
  audits : List AuditEntry
  stages : List PipelineStage
  elapsed : Nat

/-- Build an audit entry from pipeline state. -/
def mkAudit (caller : CallerContext) (name : String)
    (cls : Option Classification) (args : Value) (decision : Decision)
    (denial : Option Denial) (response : Option ResponseMeta)
    (duration : Nat) : AuditEntry :=
  { callerSub := caller.sub
    callerPermissions := caller.permissions
    toolName := name
    classification := cls
    argsHash := fingerprintVal args
    decision := decision
    denial := denial
    response := response
    duration := duration }

/-- Render field errors for the caller-visible detail channel. -/
def renderFieldErrors (errs : List FieldError) : String :=
  String.intercalate "; " (errs.map (fun e => e.path ++ ": " ++ e.message))

/-- Modelled from the spec: the orchestrator state machine (§4.7) —
LOOKUP, PERMISSION, VALIDATE_INPUT, EXECUTE, VALIDATE_OUTPUT, FILTER_OUTPUT,
AUDIT, DONE, short-circuiting to AUDIT on the first failure.  Failures in
the first three stages audit as DENIED, failures in execution or output
validation as ERROR, and reaching output filtering yields ALLOWED.  A
handler exceeding its timeout is forcibly terminated: its output is never
examined, output validation is never attempted, and the call resolves as
ExecutionFailure within the configured grace bound after the deadline. -/
def call (cfg : EngineConfig) (reg : Registry) (name : String)
    (caller : CallerContext) (args : Value) : CallOutcome :=
  match reg.get name with
  | none =>
      { result := .err ⟨.NotFound, "tool not found", .REGISTRY, none⟩
        audits := [mkAudit caller name none args .DENIED
                     (some ⟨"tool not found", .REGISTRY⟩) none 0]
        stages := [.lookup, .audit, .done]
        elapsed := 0 }
  | some tool =>
      if (checkPermissions caller tool args).allowed then
        match validateInput tool.inputSchema args with
        | .error errs =>
            { result := .err ⟨.InvalidInput, "invalid input", .VALIDATION,
                              some (renderFieldErrors errs)⟩
              audits := [mkAudit caller name (some tool.classification) args
                           .DENIED (some ⟨renderFieldErrors errs, .VALIDATION⟩)
                           none 0]
              stages := [.lookup, .permission, .inputValidation, .audit, .done]
              elapsed := 0 }
        | .ok parsed =>
            if tool.timeoutLimit < (tool.handler parsed).duration then
              { result := .err ⟨.ExecutionFailure, "execution failed",
                                .EXECUTION, none⟩
                audits := [mkAudit caller name (some tool.classification) args
                             .ERROR (some ⟨"timeout", .EXECUTION⟩) none
                             (tool.timeoutLimit + cfg.graceBound)]
                stages := [.lookup, .permission, .inputValidation, .execution,
                           .audit, .done]
                elapsed := tool.timeoutLimit + cfg.graceBound }
            else
              match (tool.handler parsed).result with
              | .error msg =>
                  { result := .err ⟨.ExecutionFailure, "execution failed",
                                    .EXECUTION, none⟩
                    audits := [mkAudit caller name (some tool.classification)
                                 args .ERROR (some ⟨msg, .EXECUTION⟩) none
                                 (tool.handler parsed).duration]
                    stages := [.lookup, .permission, .inputValidation,
                               .execution, .audit, .done]
                    elapsed := (tool.handler parsed).duration }
              | .ok output =>
                  match validateOutput tool.outputSchema output with
                  | .error _errs =>
                      { result := .err ⟨.InvalidOutput, "internal error",
                                        .OUTPUT, none⟩
                        audits := [mkAudit caller name
                                     (some tool.classification) args .ERROR
                                     (some ⟨"output schema mismatch", .OUTPUT⟩)
                                     none (tool.handler parsed).duration]
                        stages := [.lookup, .permission, .inputValidation,
                                   .execution, .outputValidation, .audit, .done]
                        elapsed := (tool.handler parsed).duration }
                  | .ok outValue =>
                      { result :=
                          .ok (filterOutput outValue tool.outputPolicy).filtered
                        audits := [mkAudit caller name
                                     (some tool.classification) args .ALLOWED
                                     none
                                     (some ⟨(filterOutput outValue
                                               tool.outputPolicy).touchedPaths,
                                            fingerprintVal outValue⟩)
                                     (tool.handler parsed).duration]
                        stages := [.lookup, .permission, .inputValidation,
                                   .execution, .outputValidation,
                                   .outputFiltering, .audit, .done]
                        elapsed := (tool.handler parsed).duration }
      else
        { result := .err ⟨.Forbidden, "not permitted", .PERMISSION, none⟩
          audits := [mkAudit caller name (some tool.classification) args
                       .DENIED
                       (some ⟨"missing: " ++
                              String.intercalate ", "
                                (checkPermissions caller tool
                                  args).missingPermissions,
                              .PERMISSION⟩) none 0]
          stages := [.lookup, .permission, .audit, .done]
          elapsed := 0 }

/-- Modelled from the spec: dispatch the already-computed call through a
fire-and-forget audit sink (§4.5).  The caller-visible result is the one the
pipeline computed; a sink write failure is collected only on the operational
side-channel. -/
def callWithSink (cfg : EngineConfig) (reg : Registry) (name : String)
    (caller : CallerContext) (args : Value)
    (sink : AuditEntry → Except String Unit) : ToolCallResult × List String :=
  let o := call cfg reg name caller args
  (o.result,
   o.audits.foldr
     (fun e acc =>
       match sink e with
       | .ok _ => acc
       | .error msg => msg :: acc) [])


/-- A schema that accepts any value unchanged. -/
def passSchema : Schema := ⟨fun v => Except.ok v⟩

/-- Sample read-only tool used to instantiate theorems on concrete input. -/
def sampleTool : ToolDefinition :=
  { name := "list_files"
    description := "list files in an allowed directory"
    classification := .read
    inputSchema := passSchema
    outputSchema := passSchema
    required := ["read_logs"]
    elevation := none
    outputPolicy := [(Pattern.catchAll, FieldRule.allow)]
    handler := fun _ => ⟨1, Except.ok (Value.obj [("out", Value.str "ok")])⟩ }

/-- Helper: the allowed flag equals emptiness of the missing-permission
filter. -/
theorem checkPermissions_allowed_eq (caller : CallerContext)
    (tool : ToolDefinition) (raw : Value) :
    (checkPermissions caller tool raw).allowed =
      (missingPerms caller tool raw).isEmpty := by
  unfold checkPermissions
  split <;> simp_all

/-- C1: the permission check allows a call iff the required set — base
permissions, plus allow_destructive for destructive classification, plus the
elevated permissions when the elevation rule exists and holds on the raw
input — is contained in the caller's permissions; an error while evaluating
the elevation predicate counts as the predicate being true (fail-closed),
never as no elevation needed. -/
theorem permission_check_iff_fail_closed :
    ∀ (caller : CallerContext) (tool : ToolDefinition) (raw : Value),
      ((checkPermissions caller tool raw).allowed = true ↔
        ∀ p ∈ requiredSet tool raw, p ∈ caller.permissions)
      ∧ (∀ cond : Value → Except String Bool,
          (elevationNeeded cond raw = false ↔ cond raw = Except.ok false))
      ∧ (∀ rule : ElevationRule, tool.elevation = some rule →
          ∀ e : String, rule.condition raw = Except.error e →
            requiredSet tool raw =
              tool.required
                ++ (if tool.classification == Classification.destructive then
                      ["allow_destructive"] else [])
                ++ rule.elevatedPermissions) := by
  intro caller tool raw
  refine ⟨?_, ?_, ?_⟩
  · rw [checkPermissions_allowed_eq]
    unfold missingPerms
    rw [List.isEmpty_iff, List.filter_eq_nil_iff]
    apply forall_congr'
    intro p
    apply imp_congr Iff.rfl
    constructor
    · intro h
      have hc : caller.permissions.contains p = true := by
        revert h
        cases caller.permissions.contains p <;> simp
      exact List.elem_iff.mp hc
    · intro h
      simpa using h
  · intro cond
    unfold elevationNeeded
    cases hc : cond raw with
    | ok b => cases b <;> simp [hc]
    | error e => simp [hc]
  · intro rule hrule e herr
    simp [requiredSet, hrule, elevationNeeded, herr]

/-- Concrete instantiation of the C1 theorem: a caller holding the read
permission is allowed to call the sample read tool. -/
theorem permission_check_iff_fail_closed_witness :
    (checkPermissions ⟨"alice", ["read_logs"]⟩ sampleTool Value.null).allowed
      = true :=
  (permission_check_iff_fail_closed ⟨"alice", ["read_logs"]⟩ sampleTool
      Value.null).1.mpr (by decide)


/-- Second sample tool with a distinct name, for concrete instantiations. -/
def sampleTool2 : ToolDefinition :=
  { name := "read_file"
    description := "read a file from an allowed directory"
    classification := .read
    inputSchema := passSchema
    outputSchema := passSchema
    required := ["read_logs"]
    elevation := none
    outputPolicy := [(Pattern.catchAll, FieldRule.allow)]
    handler := fun _ => ⟨1, Except.ok (Value.str "contents")⟩ }

/-- Helper: registering a list of definitions whose names are fresh and
pairwise distinct appends them to the catalog in order. -/
theorem registerAll_append (ds : List ToolDefinition) :
    ∀ (r : Registry),
      (∀ d ∈ ds, ∀ t ∈ r.tools, ¬ t.name = d.name) →
      (ds.map (fun d => d.name)).Nodup →
      (registerAll r ds).tools = r.tools ++ ds := by
  induction ds with
  | nil => intro r _ _; simp [registerAll]
  | cons d rest ih =>
      intro r hdisj hnodup
      have hany : r.tools.any (fun t => t.name == d.name) = false := by
        rw [List.any_eq_false]
        intro t ht
        simp [hdisj d (by simp) t ht]
      have hstep : Registry.register r d = (none, ⟨r.tools ++ [d]⟩) := by
        unfold Registry.register
        rw [hany]
        simp
      have hfold : registerAll r (d :: rest) =
          registerAll ⟨r.tools ++ [d]⟩ rest := by
        simp [registerAll, hstep]
      rw [hfold, ih]
      · simp
      · intro d' hd' t ht
        rcases List.mem_append.mp ht with h | h
        · exact hdisj d' (List.mem_cons_of_mem d hd') t h
        · have ht2 : t = d := by simpa using h
          rw [ht2]
          intro heq
          have hnames : d.name ∉ rest.map (fun x => x.name) :=
            (List.nodup_cons.mp (by simpa using hnodup)).1
          exact hnames (heq ▸ List.mem_map_of_mem (fun x => x.name) hd')
      · exact (List.nodup_cons.mp (by simpa using hnodup)).2

/-- C9: registering N definitions with pairwise distinct names from the empty
catalog makes list() return exactly those N entries in registration order;
get(name) after a successful register(def) returns def; and register(def)
fails with DuplicateName, leaving the catalog unchanged, whenever the name is
already registered. -/
theorem registry_register_get_list :
    ∀ (ds : List ToolDefinition) (r r' : Registry) (d : ToolDefinition),
      ((ds.map (fun d => d.name)).Nodup →
         (registerAll Registry.empty ds).list = ds)
      ∧ (r.register d = (none, r') → r'.get d.name = some d)
      ∧ ((r.get d.name).isSome = true →
           r.register d = (some RegError.DuplicateName, r)) := by
  intro ds r r' d
  refine ⟨?_, ?_, ?_⟩
  · intro hnodup
    have h := registerAll_append ds Registry.empty (by simp [Registry.empty])
      hnodup
    simpa [Registry.list, Registry.empty] using h
  · intro hreg
    unfold Registry.register at hreg
    by_cases hany : r.tools.any (fun t => t.name == d.name) = true
    · rw [if_pos hany] at hreg
      exact absurd (congrArg Prod.fst hreg) (by simp)
    · rw [if_neg hany] at hreg
      have hr' : r' = ⟨r.tools ++ [d]⟩ := (congrArg Prod.snd hreg).symm
      subst hr'
      unfold Registry.get
      have h1 : r.tools.find? (fun t => t.name == d.name) = none := by
        rw [List.find?_eq_none]
        intro t ht
        have := List.any_eq_false.mp (Bool.not_eq_true _ ▸ hany) t ht
        simpa using this
      simp [List.find?_append, h1, List.find?]
  · intro hget
    unfold Registry.get at hget
    rw [List.find?_isSome] at hget
    obtain ⟨t, ht, hp⟩ := hget
    have hany : r.tools.any (fun t => t.name == d.name) = true :=
      List.any_eq_true.mpr ⟨t, ht, hp⟩
    unfold Registry.register
    rw [if_pos hany]

/-- Concrete instantiation of the C9 theorem: two distinct sample tools
register in order, lookup finds a freshly registered tool, and re-registering
an existing name is rejected with the catalog unchanged. -/
theorem registry_register_get_list_witness :
    (registerAll Registry.empty [sampleTool, sampleTool2]).list.length = 2
    ∧ (Registry.empty.register sampleTool).2.get "list_files" = some sampleTool
    ∧ ((registerAll Registry.empty [sampleTool, sampleTool2]).register
        sampleTool).1 = some RegError.DuplicateName := by
  have h1 := (registry_register_get_list [sampleTool, sampleTool2]
    Registry.empty Registry.empty sampleTool).1 (by decide)
  have h2 := (registry_register_get_list [] Registry.empty
    (Registry.empty.register sampleTool).2 sampleTool).2.1 rfl
  have h3 := (registry_register_get_list []
    (registerAll Registry.empty [sampleTool, sampleTool2])
    Registry.empty sampleTool).2.2 (by decide)
  exact ⟨by rw [h1]; simp, h2, by rw [h3]⟩


mutual
/-- Is there a leaf at absolute path q inside a value located at base? -/
def hasLeafAt (base : List CSeg) : Value → List CSeg → Bool
  | .obj fields, q => hasLeafFields base fields q
  | .arr elems, q => hasLeafElems base elems q
  | .null, q => decide (base = q)
  | .bool _, q => decide (base = q)
  | .num _, q => decide (base = q)
  | .str _, q => decide (base = q)

/-- Leaf presence under an object's fields. -/
def hasLeafFields (base : List CSeg) : List (String × Value) → List CSeg → Bool
  | [], _ => false
  | (k, v) :: rest, q =>
      hasLeafAt (base ++ [CSeg.field k]) v q || hasLeafFields base rest q

/-- Leaf presence under an array's elements. -/
def hasLeafElems (base : List CSeg) : List Value → List CSeg → Bool
  | [], _ => false
  | v :: rest, q =>
      hasLeafAt (base ++ [CSeg.elem]) v q || hasLeafElems base rest q
end

/-- Leaf presence in an optional (possibly wholly stripped) value. -/
def hasLeafAtOpt (base : List CSeg) (o : Option Value) (q : List CSeg) : Bool :=
  match o with
  | none => false
  | some v => hasLeafAt base v q

/-- Helper: a fold over rules none of which match leaves the incumbent
untouched. -/
theorem resolveFold_none (q : List CSeg) :
    ∀ (policy : List (Pattern × FieldRule)),
      (∀ pr ∈ policy, patScore pr.1 q = none) →
      ∀ acc, policy.foldl (resolveStep q) acc = acc := by
  intro policy
  induction policy with
  | nil => intro _ acc; rfl
  | cons pr rest ih =>
      intro h acc
      have hpr : patScore pr.1 q = none := h pr (by simp)
      rw [List.foldl_cons,
        show resolveStep q acc pr = acc from by unfold resolveStep; rw [hpr]]
      exact ih (fun x hx => h x (by simp [hx])) acc

mutual
/-- Every leaf present in a filtered value sits at a path some explicit rule
matches. -/
theorem filterVal_sound (policy : OutputPolicy) :
    ∀ (v : Value) (base q : List CSeg),
      hasLeafAtOpt base (filterVal policy base v) q = true →
      (resolveRule policy q).isSome = true
  | .null, base, q, h => by
      simp only [filterVal] at h
      revert h
      cases hr : resolveRule policy base with
      | none => simp [applyLeafRule, hasLeafAtOpt]
      | some r =>
          cases r with
          | allow =>
              intro h
              simp only [applyLeafRule, hasLeafAtOpt, hasLeafAt] at h
              rw [← of_decide_eq_true h, hr]
              rfl
          | mask => simp [applyLeafRule, hasLeafAtOpt]
          | redact => simp [applyLeafRule, hasLeafAtOpt]
  | .bool b, base, q, h => by
      simp only [filterVal] at h
      revert h
      cases hr : resolveRule policy base with
      | none => simp [applyLeafRule, hasLeafAtOpt]
      | some r =>
          cases r with
          | allow =>
              intro h
              simp only [applyLeafRule, hasLeafAtOpt, hasLeafAt] at h
              rw [← of_decide_eq_true h, hr]
              rfl
          | mask => simp [applyLeafRule, hasLeafAtOpt]
          | redact => simp [applyLeafRule, hasLeafAtOpt]
  | .num n, base, q, h => by
      simp only [filterVal] at h
      revert h
      cases hr : resolveRule policy base with
      | none => simp [applyLeafRule, hasLeafAtOpt]
      | some r =>
          cases r with
          | allow =>
              intro h
              simp only [applyLeafRule, hasLeafAtOpt, hasLeafAt] at h
              rw [← of_decide_eq_true h, hr]
              rfl
          | mask => simp [applyLeafRule, hasLeafAtOpt]
          | redact => simp [applyLeafRule, hasLeafAtOpt]
  | .str s, base, q, h => by
      simp only [filterVal] at h
      revert h
      cases hr : resolveRule policy base with
      | none => simp [applyLeafRule, hasLeafAtOpt]
      | some r =>
          cases r with
          | allow =>
              intro h
              simp only [applyLeafRule, hasLeafAtOpt, hasLeafAt] at h
              rw [← of_decide_eq_true h, hr]
              rfl
          | mask =>
              intro h
              simp only [applyLeafRule] at h
              revert h
              split
              · simp [hasLeafAtOpt]
              · intro h
                simp only [hasLeafAtOpt, hasLeafAt] at h
                rw [← of_decide_eq_true h, hr]
                rfl
          | redact => simp [applyLeafRule, hasLeafAtOpt]
  | .arr elems, base, q, h => by
      simp only [filterVal] at h
      revert h
      cases hf : filterElems policy base elems with
      | nil => simp [hasLeafAtOpt]
      | cons x xs =>
          intro h
          simp only [hasLeafAtOpt, hasLeafAt] at h
          exact filterElems_sound policy elems base q (by rw [hf]; exact h)
  | .obj fields, base, q, h => by
      simp only [filterVal] at h
      revert h
      cases hf : filterFields policy base fields with
      | nil => simp [hasLeafAtOpt]
      | cons x xs =>
          intro h
          simp only [hasLeafAtOpt, hasLeafAt] at h
          exact filterFields_sound policy fields base q (by rw [hf]; exact h)

/-- Field-list case of the filtered-leaf soundness invariant. -/
theorem filterFields_sound (policy : OutputPolicy) :
    ∀ (fs : List (String × Value)) (base q : List CSeg),
      hasLeafFields base (filterFields policy base fs) q = true →
      (resolveRule policy q).isSome = true
  | [], base, q, h => by simp [filterFields, hasLeafFields] at h
  | (k, v) :: rest, base, q, h => by
      simp only [filterFields] at h
      revert h
      cases hv : filterVal policy (base ++ [CSeg.field k]) v with
      | none =>
          intro h
          exact filterFields_sound policy rest base q h
      | some w =>
          intro h
          simp only [hasLeafFields] at h
          rw [Bool.or_eq_true] at h
          rcases h with h1 | h2
          · exact filterVal_sound policy v (base ++ [CSeg.field k]) q
              (by rw [hv]; simpa [hasLeafAtOpt] using h1)
          · exact filterFields_sound policy rest base q h2

/-- Element-list case of the filtered-leaf soundness invariant. -/
theorem filterElems_sound (policy : OutputPolicy) :
    ∀ (es : List Value) (base q : List CSeg),
      hasLeafElems base (filterElems policy base es) q = true →
      (resolveRule policy q).isSome = true
  | [], base, q, h => by simp [filterElems, hasLeafElems] at h
  | v :: rest, base, q, h => by
      simp only [filterElems] at h
      revert h
      cases hv : filterVal policy (base ++ [CSeg.elem]) v with
      | none =>
          intro h
          exact filterElems_sound policy rest base q h
      | some w =>
          intro h
          simp only [hasLeafElems] at h
          rw [Bool.or_eq_true] at h
          rcases h with h1 | h2
          · exact filterVal_sound policy v (base ++ [CSeg.elem]) q
              (by rw [hv]; simpa [hasLeafAtOpt] using h1)
          · exact filterElems_sound policy rest base q h2
end

/-- C2: every leaf field of the output that no explicit allow/mask/redact
rule of the policy matches is absent from the filtered result returned by
the output policy engine (default deny); the filtering step itself is a
total function — it cannot fail, and yields the empty object when nothing
survives. -/
theorem filterOutput_default_deny :
    ∀ (data : Value) (policy : OutputPolicy) (q : List CSeg),
      (∀ pr ∈ policy, patScore pr.1 q = none) →
      hasLeafAt [] (filterOutput data policy).filtered q = false := by
  intro data policy q h
  have hres : resolveRule policy q = none := by
    unfold resolveRule resolveBest
    rw [resolveFold_none q policy h none]
    rfl
  cases hb : hasLeafAt [] (filterOutput data policy).filtered q with
  | false => rfl
  | true =>
      exfalso
      simp only [filterOutput] at hb
      revert hb
      cases hf : filterVal policy [] data with
      | none =>
          simp [hasLeafAt, hasLeafFields]
      | some v =>
          intro hb
          have hsome : (resolveRule policy q).isSome = true :=
            filterVal_sound policy data [] q
              (by rw [hf]; simpa [hasLeafAtOpt] using hb)
          rw [hres] at hsome
          simp at hsome

/-- Concrete instantiation of the C2 theorem: a field the policy never
mentions is stripped from the filtered result. -/
theorem filterOutput_default_deny_witness :
    hasLeafAt [] (filterOutput (Value.obj [("b", Value.str "x")])
      [(Pattern.path [PSeg.field "a"], FieldRule.allow)]).filtered
      [CSeg.field "b"] = false :=
  filterOutput_default_deny (Value.obj [("b", Value.str "x")])
    [(Pattern.path [PSeg.field "a"], FieldRule.allow)] [CSeg.field "b"]
    (by intro pr hpr; rw [List.mem_singleton] at hpr; subst hpr; rfl)


/-- C6: a string matched by a mask rule keeps its first and last character
and the interior is replaced by the fixed three-character mask token, so the
masked form has length 5 regardless of the original length; a matched string
of length at most 2 is fully redacted (stripped) instead of masked.  Both
outcomes report the path as touched. -/
theorem mask_rule_masks_strings :
    ∀ (policy : OutputPolicy) (path : List CSeg) (s : String),
      resolveRule policy path = some FieldRule.mask →
      (s.length ≤ 2 →
         filterVal policy path (.str s) = none
         ∧ touchedVal policy path (.str s) = [path])
      ∧ (∀ (a b : Char) (mid : List Char),
           3 ≤ s.length → s.data = a :: (mid ++ [b]) →
           filterVal policy path (.str s) = some (.str (maskString s))
           ∧ (maskString s).data = a :: (maskToken.data ++ [b])
           ∧ (maskString s).length = 5) := by
  intro policy path s hmask
  constructor
  · intro hle
    constructor
    · simp only [filterVal, hmask, applyLeafRule]
      rw [if_pos hle]
    · simp only [touchedVal, touchedLeaf, hmask]
  · intro a b mid h3 hdata
    have hlen : ¬ (s.length ≤ 2) := by omega
    have hmdata : (maskString s).data = a :: (maskToken.data ++ [b]) := by
      show s.data.take 1 ++ maskToken.data ++ s.data.drop (s.data.length - 1)
          = a :: (maskToken.data ++ [b])
      rw [hdata]
      have hL : (a :: (mid ++ [b])).length - 1 = mid.length + 1 := by
        simp
      rw [hL, List.drop_succ_cons, List.drop_left]
      simp
    refine ⟨?_, hmdata, ?_⟩
    · simp only [filterVal, hmask, applyLeafRule]
      rw [if_neg hlen]
    · show (maskString s).data.length = 5
      rw [hmdata]
      simp [maskToken]

/-- Concrete instantiation of the C6 theorem: masking the six-character
string "secret" under a catch-all mask policy yields a five-character
masked form. -/
theorem mask_rule_masks_strings_witness :
    (maskString "secret").length = 5 :=
  ((mask_rule_masks_strings [(Pattern.catchAll, FieldRule.mask)]
      [CSeg.field "email"] "secret" rfl).2
    's' 't' ['e', 'c', 'r', 'e'] (by decide) rfl).2.2


/-- Helper: the strict score comparison fails exactly when the left score is
lexicographically at most the right one. -/
theorem lexGT_false_iff (a b : Nat × Nat) :
    lexGT a b = false ↔ (a.1 ≤ b.1 ∧ (a.1 = b.1 → a.2 ≤ b.2)) := by
  simp [lexGT]

/-- Helper: the strict score comparison is irreflexive. -/
theorem lexGT_false_refl (a : Nat × Nat) : lexGT a a = false := by
  rw [lexGT_false_iff]
  omega

/-- Helper: transitivity of the non-strict direction. -/
theorem lexGT_false_trans {a b c : Nat × Nat} (h1 : lexGT a b = false)
    (h2 : lexGT b c = false) : lexGT a c = false := by
  rw [lexGT_false_iff] at h1 h2 ⊢
  omega

/-- Helper: a lower incumbent is still below anything above the winner. -/
theorem lexGT_chain {a b c : Nat × Nat} (h1 : lexGT a b = true)
    (h2 : lexGT a c = false) : lexGT b c = false := by
  simp [lexGT] at h1 h2 ⊢
  omega

/-- Helper: folding further rules never makes the incumbent best score
worse. -/
theorem resolveFold_mono (q : List CSeg) :
    ∀ (xs : List (Pattern × FieldRule)) (b : (Nat × Nat) × FieldRule),
      ∃ b', xs.foldl (resolveStep q) (some b) = some b'
        ∧ lexGT b.1 b'.1 = false := by
  intro xs
  induction xs with
  | nil => intro b; exact ⟨b, rfl, lexGT_false_refl b.1⟩
  | cons pr rest ih =>
      intro b
      rw [List.foldl_cons]
      unfold resolveStep
      cases hsc : patScore pr.1 q with
      | none => exact ih b
      | some sc =>
          simp only []
          by_cases hgt : lexGT sc b.1 = true
          · rw [if_pos hgt]
            obtain ⟨b', hb', hle⟩ := ih (sc, pr.2)
            exact ⟨b', hb', lexGT_chain hgt hle⟩
          · rw [if_neg hgt]
            exact ih b

/-- Helper: the chosen best dominates the score of every matching declared
rule. -/
theorem resolveFold_bound (q : List CSeg) :
    ∀ (xs : List (Pattern × FieldRule))
      (acc : Option ((Nat × Nat) × FieldRule)) (pat : Pattern) (r : FieldRule)
      (sc : Nat × Nat),
      (pat, r) ∈ xs → patScore pat q = some sc →
      ∃ b', xs.foldl (resolveStep q) acc = some b'
        ∧ lexGT sc b'.1 = false := by
  intro xs
  induction xs with
  | nil => intro acc pat r sc hmem _; simp at hmem
  | cons pr rest ih =>
      intro acc pat r sc hmem hsc
      rw [List.foldl_cons]
      rcases List.mem_cons.mp hmem with heq | hmem'
      · rw [show resolveStep q acc pr = resolveStep q acc (pat, r) from by
          rw [← heq]]
        unfold resolveStep
        rw [hsc]
        cases acc with
        | none =>
            simp only []
            exact resolveFold_mono q rest (sc, r)
        | some b =>
            simp only []
            by_cases hgt : lexGT sc b.1 = true
            · rw [if_pos hgt]
              exact resolveFold_mono q rest (sc, r)
            · rw [if_neg hgt]
              have hgt' : lexGT sc b.1 = false := by simpa using hgt
              obtain ⟨b', hb', hle⟩ := resolveFold_mono q rest b
              exact ⟨b', hb', lexGT_false_trans hgt' hle⟩
      · exact ih (resolveStep q acc pr) pat r sc hmem' hsc

/-- C7: when several rules of a policy match the same leaf path, the most
structurally specific rule is applied — the chosen best score dominates the
score of every matching declared rule (ties broken by declaration order),
and the ranks order exact paths (3) above wildcard paths and the catch-all
(2) above recursive descent (1); in particular the scenario policy redacting
.customer.email while allowing everything else yields the object without
the email and touchedPaths [".customer.email"]. -/
theorem output_policy_precedence :
    ∀ (policy : OutputPolicy) (q : List CSeg) (pat : Pattern) (r : FieldRule)
      (sc : Nat × Nat),
      ((pat, r) ∈ policy → patScore pat q = some sc →
        ∃ best, resolveBest policy q = some best ∧ lexGT sc best.1 = false)
      ∧ (∀ segs, hasWildcard segs = false →
           patScore (Pattern.path segs) q = some sc → sc.1 = 3)
      ∧ (∀ segs, hasWildcard segs = true →
           patScore (Pattern.path segs) q = some sc → sc.1 = 2)
      ∧ (patScore Pattern.catchAll q = some sc → sc.1 = 2)
      ∧ (∀ name, patScore (Pattern.recursiveField name) q = some sc →
           sc.1 = 1)
      ∧ filterOutput
          (.obj [("customer",
                  .obj [("id", .str "1"), ("email", .str "a@b.com")])])
          [(Pattern.path [PSeg.field "customer", PSeg.field "email"],
            FieldRule.redact),
           (Pattern.catchAll, FieldRule.allow)]
        = ⟨.obj [("customer", .obj [("id", .str "1")])],
           [".customer.email"]⟩ := by
  intro policy q pat r sc
  refine ⟨?_, ?_, ?_, ?_, ?_, rfl⟩
  · intro hmem hsc
    exact resolveFold_bound q policy none pat r sc hmem hsc
  · intro segs hw hsc
    simp only [patScore, hw] at hsc
    revert hsc
    split
    · intro hsc
      simp at hsc
      rw [← hsc]
    · intro hsc
      simp at hsc
  · intro segs hw hsc
    simp only [patScore, hw] at hsc
    revert hsc
    split
    · intro hsc
      simp at hsc
      rw [← hsc]
    · intro hsc
      simp at hsc
  · intro hsc
    simp only [patScore] at hsc
    revert hsc
    split
    · intro hsc
      simp at hsc
    · intro hsc
      simp at hsc
      rw [← hsc]
  · intro name hsc
    simp only [patScore] at hsc
    revert hsc
    split
    · intro hsc
      simp at hsc
      rw [← hsc]
      rfl
    · intro hsc
      simp at hsc

/-- Concrete instantiation of the C7 theorem: the exact-path redact rule of
the scenario policy is matched at .customer.email, so a best rule exists. -/
theorem output_policy_precedence_witness :
    (resolveBest
      [(Pattern.path [PSeg.field "customer", PSeg.field "email"],
        FieldRule.redact), (Pattern.catchAll, FieldRule.allow)]
      [CSeg.field "customer", CSeg.field "email"]).isSome = true := by
  obtain ⟨best, hb, _⟩ := (output_policy_precedence
      [(Pattern.path [PSeg.field "customer", PSeg.field "email"],
        FieldRule.redact), (Pattern.catchAll, FieldRule.allow)]
      [CSeg.field "customer", CSeg.field "email"]
      (Pattern.path [PSeg.field "customer", PSeg.field "email"])
      FieldRule.redact (3, 2)).1 (List.mem_cons_self _ _) (by decide)
  rw [hb]
  rfl


/-- C3: every call attempt produces exactly one audit entry, on every code
path including early rejection and success; in particular a call naming an
unregistered action returns NotFound and produces exactly one audit entry
with decision DENIED and stage REGISTRY. -/
theorem call_exactly_one_audit :
    ∀ (cfg : EngineConfig) (reg : Registry) (name : String)
      (caller : CallerContext) (args : Value),
      (call cfg reg name caller args).audits.length = 1
      ∧ (reg.get name = none →
          (call cfg reg name caller args).result =
            .err ⟨.NotFound, "tool not found", .REGISTRY, none⟩
          ∧ (call cfg reg name caller args).audits =
              [mkAudit caller name none args .DENIED
                (some ⟨"tool not found", .REGISTRY⟩) none 0]) := by
  intro cfg reg name caller args
  constructor
  · unfold call
    repeat' split
    all_goals rfl
  · intro h
    simp [call, h]

/-- Concrete instantiation of the C3 theorem: calling an unregistered name
on the empty registry is denied at stage REGISTRY with one audit entry. -/
theorem call_exactly_one_audit_witness :
    (call ⟨1⟩ Registry.empty "missing" ⟨"alice", []⟩ Value.null).result =
      .err ⟨.NotFound, "tool not found", .REGISTRY, none⟩
    ∧ (call ⟨1⟩ Registry.empty "missing" ⟨"alice", []⟩
        Value.null).audits.length = 1 :=
  ⟨((call_exactly_one_audit ⟨1⟩ Registry.empty "missing" ⟨"alice", []⟩
      Value.null).2 rfl).1,
   (call_exactly_one_audit ⟨1⟩ Registry.empty "missing" ⟨"alice", []⟩
      Value.null).1⟩


/-- C4: every failure is reported to the caller as an error with a stage
drawn from REGISTRY, PERMISSION, VALIDATION, EXECUTION, OUTPUT; a failure at
lookup, permission or input validation audits as DENIED, a failure at
execution or output validation audits as ERROR, and a pipeline that reaches
output filtering audits ALLOWED and returns a success result carrying the
filtered output. -/
theorem call_stage_decision_mapping :
    ∀ (cfg : EngineConfig) (reg : Registry) (name : String)
      (caller : CallerContext) (args : Value),
      (∀ e, (call cfg reg name caller args).result = .err e →
         (e.stage = .REGISTRY ∨ e.stage = .PERMISSION ∨ e.stage = .VALIDATION
           ∨ e.stage = .EXECUTION ∨ e.stage = .OUTPUT)
         ∧ (∀ a ∈ (call cfg reg name caller args).audits,
              ((e.stage = .REGISTRY ∨ e.stage = .PERMISSION ∨
                e.stage = .VALIDATION) → a.decision = .DENIED)
              ∧ ((e.stage = .EXECUTION ∨ e.stage = .OUTPUT) →
                  a.decision = .ERROR)))
      ∧ (PipelineStage.outputFiltering ∈
           (call cfg reg name caller args).stages →
         (∀ a ∈ (call cfg reg name caller args).audits,
            a.decision = .ALLOWED)
         ∧ ∃ d, (call cfg reg name caller args).result = .ok d) := by
  intro cfg reg name caller args
  unfold call
  repeat' split
  all_goals constructor
  all_goals intro e
  all_goals try simp_all
  all_goals try (intro he; subst he)
  all_goals simp [mkAudit]

/-- Concrete instantiation of the C4 theorem: the NotFound failure of an
unregistered call audits as DENIED. -/
theorem call_stage_decision_mapping_witness :
    (mkAudit ⟨"alice", []⟩ "missing" none Value.null Decision.DENIED
      (some ⟨"tool not found", ErrStage.REGISTRY⟩) none 0).decision =
      Decision.DENIED := by
  have h := ((call_stage_decision_mapping ⟨1⟩ Registry.empty "missing"
      ⟨"alice", []⟩ Value.null).1
    ⟨.NotFound, "tool not found", .REGISTRY, none⟩ rfl).2
  exact (h (mkAudit ⟨"alice", []⟩ "missing" none Value.null Decision.DENIED
      (some ⟨"tool not found", ErrStage.REGISTRY⟩) none 0)
    (List.mem_singleton_self _)).1 (Or.inl rfl)


/-- Helper: a failing write on any entry surfaces its message on the
side-channel list. -/
theorem sideMsgs_mem (sink : AuditEntry → Except String Unit) :
    ∀ (l : List AuditEntry) (e : AuditEntry) (msg : String),
      e ∈ l → sink e = .error msg →
      msg ∈ l.foldr
        (fun a acc =>
          match sink a with
          | .ok _ => acc
          | .error m => m :: acc) [] := by
  intro l
  induction l with
  | nil => intro e msg h _; simp at h
  | cons a rest ih =>
      intro e msg hmem hmsg
      rw [List.foldr_cons]
      rcases List.mem_cons.mp hmem with heq | hmem'
      · rw [← heq, hmsg]
        exact List.mem_cons_self _ _
      · cases hs : sink a with
        | ok u => exact ih e msg hmem' hmsg
        | error m => exact List.mem_cons_of_mem m (ih e msg hmem' hmsg)

/-- C5: for every call and every behaviour of the audit sink, the
caller-visible result is exactly the Call Result the pipeline computed —
identical under any two sinks — and a sink write failure is surfaced only on
the operational side-channel message list, never in the response. -/
theorem sink_failure_never_changes_result :
    ∀ (cfg : EngineConfig) (reg : Registry) (name : String)
      (caller : CallerContext) (args : Value)
      (sink1 sink2 : AuditEntry → Except String Unit),
      (callWithSink cfg reg name caller args sink1).1 =
        (call cfg reg name caller args).result
      ∧ (callWithSink cfg reg name caller args sink1).1 =
          (callWithSink cfg reg name caller args sink2).1
      ∧ (∀ e ∈ (call cfg reg name caller args).audits, ∀ msg,
           sink1 e = .error msg →
           msg ∈ (callWithSink cfg reg name caller args sink1).2) := by
  intro cfg reg name caller args sink1 sink2
  refine ⟨rfl, rfl, ?_⟩
  intro e he msg hmsg
  exact sideMsgs_mem sink1 (call cfg reg name caller args).audits e msg
    he hmsg

/-- Sample registry holding the two sample tools. -/
def sampleReg : Registry :=
  registerAll Registry.empty [sampleTool, sampleTool2]

/-- Concrete instantiation of the C5 theorem: a sink that throws on every
write surfaces its message only on the side-channel, while the call result
equals the pipeline result. -/
theorem sink_failure_never_changes_result_witness :
    (callWithSink ⟨1⟩ sampleReg "list_files" ⟨"alice", ["read_logs"]⟩
        Value.null (fun _ => Except.error "disk full")).1 =
      (call ⟨1⟩ sampleReg "list_files" ⟨"alice", ["read_logs"]⟩
        Value.null).result
    ∧ "disk full" ∈ (callWithSink ⟨1⟩ sampleReg "list_files"
        ⟨"alice", ["read_logs"]⟩ Value.null
        (fun _ => Except.error "disk full")).2 := by
  have h := sink_failure_never_changes_result ⟨1⟩ sampleReg "list_files"
    ⟨"alice", ["read_logs"]⟩ Value.null (fun _ => Except.error "disk full")
    (fun _ => Except.ok ())
  refine ⟨h.1, ?_⟩
  refine h.2.2 (mkAudit ⟨"alice", ["read_logs"]⟩ "list_files"
    (some Classification.read) Value.null Decision.ALLOWED none
    (some ⟨[], fingerprintVal (Value.obj [("out", Value.str "ok")])⟩) 1)
    ?_ "disk full" rfl
  exact List.mem_singleton_self _


/-- Sample tool whose handler overruns its 2-unit deadline. -/
def slowTool : ToolDefinition :=
  { name := "slow_query"
    description := "query whose backing operation overruns its deadline"
    classification := .read
    inputSchema := passSchema
    outputSchema := passSchema
    required := ["read_logs"]
    elevation := none
    outputPolicy := [(Pattern.catchAll, FieldRule.allow)]
    handler := fun _ => ⟨5, Except.ok (Value.str "late partial data")⟩
    timeoutLimit := 2 }

/-- C8: a handler exceeding its timeout is forcibly cut off — the call
resolves as ExecutionFailure at stage EXECUTION no later than the deadline
plus the configured grace bound, output-schema validation is never
attempted, and no partial output is surfaced as a result. -/
theorem timeout_forces_execution_failure :
    ∀ (cfg : EngineConfig) (reg : Registry) (name : String)
      (caller : CallerContext) (args : Value) (tool : ToolDefinition)
      (parsed : Value),
      reg.get name = some tool →
      (checkPermissions caller tool args).allowed = true →
      validateInput tool.inputSchema args = .ok parsed →
      tool.timeoutLimit < (tool.handler parsed).duration →
      (call cfg reg name caller args).result =
        .err ⟨.ExecutionFailure, "execution failed", .EXECUTION, none⟩
      ∧ (call cfg reg name caller args).elapsed ≤
          tool.timeoutLimit + cfg.graceBound
      ∧ PipelineStage.outputValidation ∉ (call cfg reg name caller args).stages
      ∧ ∀ d, (call cfg reg name caller args).result ≠ .ok d := by
  intro cfg reg name caller args tool parsed hget hperm hval htime
  have hcall : call cfg reg name caller args =
      { result := .err ⟨.ExecutionFailure, "execution failed",
                        .EXECUTION, none⟩
        audits := [mkAudit caller name (some tool.classification) args
                     .ERROR (some ⟨"timeout", .EXECUTION⟩) none
                     (tool.timeoutLimit + cfg.graceBound)]
        stages := [.lookup, .permission, .inputValidation, .execution,
                   .audit, .done]
        elapsed := tool.timeoutLimit + cfg.graceBound } := by
    unfold call
    rw [hget]
    simp only [hperm, if_true]
    rw [hval]
    dsimp only
    rw [if_pos htime]
  rw [hcall]
  refine ⟨rfl, Nat.le_refl _, ?_, ?_⟩
  · simp
  · intro d
    simp

/-- Concrete instantiation of the C8 theorem: a 5-unit handler under a
2-unit deadline resolves as an execution failure within the 1-unit grace
bound, and output validation is skipped. -/
theorem timeout_forces_execution_failure_witness :
    (call ⟨1⟩ (registerAll Registry.empty [slowTool]) "slow_query"
        ⟨"alice", ["read_logs"]⟩ Value.null).result =
      .err ⟨.ExecutionFailure, "execution failed", .EXECUTION, none⟩
    ∧ (call ⟨1⟩ (registerAll Registry.empty [slowTool]) "slow_query"
        ⟨"alice", ["read_logs"]⟩ Value.null).elapsed ≤ 3 := by
  have h := timeout_forces_execution_failure ⟨1⟩
    (registerAll Registry.empty [slowTool]) "slow_query"
    ⟨"alice", ["read_logs"]⟩ Value.null slowTool Value.null rfl (by decide)
    rfl (by decide)
  exact ⟨h.1, h.2.1⟩


/-- Helper: under the six success conditions the whole call outcome is the
success literal. -/
theorem call_eq_of_success (cfg : EngineConfig) (reg : Registry)
    (name : String) (caller : CallerContext) (args : Value)
    (tool : ToolDefinition) (parsed output outValue : Value)
    (hget : reg.get name = some tool)
    (hperm : (checkPermissions caller tool args).allowed = true)
    (hval : validateInput tool.inputSchema args = .ok parsed)
    (ht : ¬ (tool.timeoutLimit < (tool.handler parsed).duration))
    (hexec : (tool.handler parsed).result = .ok output)
    (hout : validateOutput tool.outputSchema output = .ok outValue) :
    call cfg reg name caller args =
      { result := .ok (filterOutput outValue tool.outputPolicy).filtered
        audits := [mkAudit caller name (some tool.classification) args
                     .ALLOWED none
                     (some ⟨(filterOutput outValue
                               tool.outputPolicy).touchedPaths,
                            fingerprintVal outValue⟩)
                     (tool.handler parsed).duration]
        stages := [.lookup, .permission, .inputValidation, .execution,
                   .outputValidation, .outputFiltering, .audit, .done]
        elapsed := (tool.handler parsed).duration } := by
  unfold call
  rw [hget]
  simp only [hperm, if_true]
  rw [hval]
  dsimp only
  rw [if_neg ht, hexec]
  dsimp only
  rw [hout]

/-- Helper: a successful result pins down the success conditions of the
pipeline, none of which involves the caller except the permission gate. -/
theorem call_ok_conditions (cfg : EngineConfig) (reg : Registry)
    (name : String) (caller : CallerContext) (args : Value) (d : Value) :
    (call cfg reg name caller args).result = .ok d →
    ∃ tool parsed output outValue,
      reg.get name = some tool
      ∧ (checkPermissions caller tool args).allowed = true
      ∧ validateInput tool.inputSchema args = .ok parsed
      ∧ ¬ (tool.timeoutLimit < (tool.handler parsed).duration)
      ∧ (tool.handler parsed).result = .ok output
      ∧ validateOutput tool.outputSchema output = .ok outValue
      ∧ d = (filterOutput outValue tool.outputPolicy).filtered := by
  intro h
  unfold call at h
  split at h
  case h_1 heq => exact absurd h (by simp)
  case h_2 tool heq =>
  split at h
  case isFalse hperm => exact absurd h (by simp)
  case isTrue hperm =>
  split at h
  case h_1 errs heq2 => exact absurd h (by simp)
  case h_2 parsed heq2 =>
  split at h
  case isTrue ht => exact absurd h (by simp)
  case isFalse ht =>
  split at h
  case h_1 msg heq3 => exact absurd h (by simp)
  case h_2 output heq3 =>
  split at h
  case h_1 errs2 heq4 => exact absurd h (by simp)
  case h_2 outValue heq4 =>
  refine ⟨tool, parsed, output, outValue, heq, hperm, heq2, ht, heq3, heq4,
    ?_⟩
  simp at h
  exact h.symm

/-- C10: the filtered data and the audited touched-path response of a
successful call depend only on the produced output value and the action's
declared output policy, never on the caller: two callers whose calls on the
same action and arguments both succeed receive identical filtered data and
identical response metadata. -/
theorem filtered_result_caller_independent :
    ∀ (cfg : EngineConfig) (reg : Registry) (name : String) (args : Value)
      (c1 c2 : CallerContext) (d1 d2 : Value),
      (call cfg reg name c1 args).result = .ok d1 →
      (call cfg reg name c2 args).result = .ok d2 →
      d1 = d2
      ∧ (call cfg reg name c1 args).audits.map (fun a => a.response) =
          (call cfg reg name c2 args).audits.map (fun a => a.response) := by
  intro cfg reg name args c1 c2 d1 d2 h1 h2
  obtain ⟨t1, p1, o1, v1, hg1, hp1, hv1, ht1, he1, ho1, hd1⟩ :=
    call_ok_conditions cfg reg name c1 args d1 h1
  obtain ⟨t2, p2, o2, v2, hg2, hp2, hv2, ht2, he2, ho2, hd2⟩ :=
    call_ok_conditions cfg reg name c2 args d2 h2
  have htool : t1 = t2 := by
    rw [hg1] at hg2
    exact Option.some.inj hg2
  subst htool
  have hparsed : p1 = p2 := by
    rw [hv1] at hv2
    exact Except.ok.inj hv2
  subst hparsed
  have houtput : o1 = o2 := by
    rw [he1] at he2
    exact Except.ok.inj he2
  subst houtput
  have hvalue : v1 = v2 := by
    rw [ho1] at ho2
    exact Except.ok.inj ho2
  subst hvalue
  refine ⟨by rw [hd1, hd2], ?_⟩
  rw [call_eq_of_success cfg reg name c1 args t1 p1 o1 v1 hg1 hp1 hv1 ht1
        he1 ho1,
      call_eq_of_success cfg reg name c2 args t1 p1 o1 v1 hg2 hp2 hv2 ht2
        he2 ho2]
  simp [mkAudit]

/-- Concrete instantiation of the C10 theorem: two different callers of the
sample tool receive identical audited response metadata. -/
theorem filtered_result_caller_independent_witness :
    (call ⟨1⟩ sampleReg "list_files" ⟨"alice", ["read_logs"]⟩
        Value.null).audits.map (fun a => a.response) =
      (call ⟨1⟩ sampleReg "list_files" ⟨"bob", ["read_logs", "ops"]⟩
        Value.null).audits.map (fun a => a.response) :=
  (filtered_result_caller_independent ⟨1⟩ sampleReg "list_files" Value.null
    ⟨"alice", ["read_logs"]⟩ ⟨"bob", ["read_logs", "ops"]⟩
    (Value.obj [("out", Value.str "ok")]) (Value.obj [("out", Value.str "ok")])
    rfl rfl).2

end SafeToolCall
